import Mathlib

/-!
Verification of the YOLOv9 ONNX detection pipeline (`yolo/engine/inference copy.py`).

The file embeds the `YOLOv9` class and its `postprocess` / `get_label_name` /
`preprocess` / `detect` methods as pure Lean functions.  Machine floats are
modelled by exact rationals (`ℚ`), the `int32` cast by truncation toward zero,
and Python exceptions by an explicit error type threaded through `Except`.

External collaborators that are not part of the repository's `src/` tree are
modelled from the specification: the helper `xywh2xyxy` from `yolo.utils`, and
the greedy non-maximum suppression of `cv2.dnn.NMSBoxes` (spec §4.3).
-/

/-- Errors a `detect` call can surface.  `valueError` models numpy's
"zero-size array to reduction operation" raised by `np.max` on an empty class
slice; `unknownClassId` models the Python `IndexError` raised by the
`self.classes[class_id]` lookup in `get_label_name` (the spec's taxonomy names
this condition `UnknownClassId`); `attributeError` models accessing `self.img`
before any `detect` call assigned it. -/
inductive PyErr where
  | valueError
  | unknownClassId
  | attributeError
deriving DecidableEq

deriving instance DecidableEq for Except

/-- An input image: only its shape and an opaque pixel payload are modelled;
pixel transformations are performed by external collaborators (cv2). -/
structure Image where
  height : Nat
  width : Nat
  pixels : List (List (Nat × Nat × Nat))
deriving DecidableEq

/-- One output record of `postprocess`: the dict
`{class_index, confidence, box, class_name}` built in the final loop. -/
structure Detection where
  class_index : Nat
  confidence : ℚ
  box : List ℚ
  class_name : String
deriving DecidableEq

/-- The `YOLOv9` detector object.  Configuration fields are set in `__init__`
(`conf_threshold`, `iou_threshold`, `score_threshold`, the model input size
discovered at load time, `image_width`/`image_height` from the construction
argument `original_size`, and the class table `classes`).  The fields `boxes`,
`scores`, `class_ids`, `img_height`, `img_width` and `img` are the mutable
per-call fields the Python code assigns on the instance (initialised to
`None`).  Runtime handles (the onnxruntime session, file paths, the annotator)
are external collaborators and are not part of the modelled state. -/
structure YOLOv9 where
  conf_threshold : ℚ
  iou_threshold : ℚ
  score_threshold : ℚ
  boxes : Option (List (List ℤ))
  scores : Option (List ℚ)
  class_ids : Option (List Nat)
  img_height : Option Nat
  img_width : Option Nat
  input_height : Nat
  input_width : Nat
  image_width : Nat
  image_height : Nat
  classes : List String
  img : Option Image
deriving DecidableEq

/-- The configuration (read-only after `__init__`) part of a detector. -/
structure ConfigView where
  conf_threshold : ℚ
  iou_threshold : ℚ
  score_threshold : ℚ
  input_height : Nat
  input_width : Nat
  image_width : Nat
  image_height : Nat
  classes : List String
deriving DecidableEq

def configOf (s : YOLOv9) : ConfigView :=
  ⟨s.conf_threshold, s.iou_threshold, s.score_threshold, s.input_height,
   s.input_width, s.image_width, s.image_height, s.classes⟩

/-- `np.max(predictions[:, 4:], axis=1)`: the row-wise maximum of the class
score fields.  numpy raises a `ValueError` when asked to reduce an empty
axis, i.e. when a row has no fields past the first four. -/
def anchorScores : List (List ℚ) → Except PyErr (List ℚ)
  | [] => .ok []
  | r :: rs =>
    match (r.drop 4).max? with
    | none => .error .valueError
    | some m => (anchorScores rs).map (fun ms => m :: ms)

/-- `np.argmax` over one row of class scores: the index of the first maximal
entry (deterministic argmax on array order). -/
def argmaxIdx : List ℚ → Nat
  | [] => 0
  | x :: xs => if (xs.max?.getD x) ≤ x then 0 else argmaxIdx xs + 1

/-- numpy boolean-mask indexing `a[mask]`. -/
def filterByMask (mask : List Bool) (xs : List α) : List α :=
  ((mask.zip xs).filter (fun p => p.1)).map (fun p => p.2)

/-- The boolean mask `scores > conf_threshold`. -/
def convMask (t : ℚ) (ss : List ℚ) : List Bool :=
  ss.map (fun x => decide (t < x))

/-- `astype(np.int32)`: C-style float-to-int conversion truncates toward
zero. -/
def truncQ (q : ℚ) : ℤ := if q < 0 then -((-q).floor) else q.floor

namespace YOLOv9

/-- The conf-threshold prefilter of `postprocess` (lines 76-79): row-wise max
class scores, then boolean-mask filtering of both `predictions` and `scores`
by `scores > self.conf_threshold`. -/
def decoded (s : YOLOv9) (preds : List (List ℚ)) :
    Except PyErr (List (List ℚ) × List ℚ) :=
  (anchorScores preds).map (fun ss =>
    (filterByMask (convMask s.conf_threshold ss) preds,
     filterByMask (convMask s.conf_threshold ss) ss))

/-- `class_ids = np.argmax(predictions[:, 4:], axis=1)` on the filtered
rows. -/
def classIdsOf (preds : List (List ℚ)) : List Nat :=
  preds.map (fun r => argmaxIdx (r.drop 4))

/-- The box rescaling of `postprocess` (lines 82-88): take the first four
fields, divide by `[input_width, input_height, input_width, input_height]`,
multiply by `[image_width, image_height, image_width, image_height]` and cast
to `int32`.  Note the multipliers are the construction-time
`self.image_width`/`self.image_height`, not the per-call
`self.img_width`/`self.img_height`. -/
def rescaleRow (s : YOLOv9) (r : List ℚ) : List ℤ :=
  let shape : List ℚ :=
    [(s.input_width : ℚ), (s.input_height : ℚ), (s.input_width : ℚ), (s.input_height : ℚ)]
  let scale : List ℚ :=
    [(s.image_width : ℚ), (s.image_height : ℚ), (s.image_width : ℚ), (s.image_height : ℚ)]
  ((((r.take 4).zipWith (fun a b => a / b) shape).zipWith (fun a b => a * b) scale).map truncQ)

def rescaledBoxes (s : YOLOv9) (preds : List (List ℚ)) : List (List ℤ) :=
  preds.map (fun r => s.rescaleRow r)

end YOLOv9

/-- Accessors for the four components of a box stored as a row
`[x, y, w, h]`. -/
def boxX (b : List ℤ) : ℤ := b.getD 0 0

def boxY (b : List ℤ) : ℤ := b.getD 1 0

def boxW (b : List ℤ) : ℤ := b.getD 2 0

def boxH (b : List ℤ) : ℤ := b.getD 3 0

def rectArea (b : List ℤ) : ℤ := boxW b * boxH b

/-- Modelled from the spec: the axis-aligned intersection area used by the
IoU of the suppression step (§4.3); the implementation lives in OpenCV's
`cv2.dnn.NMSBoxes`, outside this repository's sources.  Empty overlap yields
area `0`. -/
def interArea (a b : List ℤ) : ℤ :=
  let iw := min (boxX a + boxW a) (boxX b + boxW b) - max (boxX a) (boxX b)
  let ih := min (boxY a + boxH a) (boxY b + boxH b) - max (boxY a) (boxY b)
  if 0 < iw ∧ 0 < ih then iw * ih else 0

/-- Modelled from the spec: IoU on corner-free `(x, y, w, h)` rectangles,
`intersection / (areaA + areaB - intersection)`, with an explicit guard so a
zero union never divides by zero (§4.3).  Implemented by
`cv2.dnn.NMSBoxes`, outside this repository's sources. -/
def rectOverlap (a b : List ℤ) : ℚ :=
  let ia : ℚ := (interArea a b : ℤ)
  let au : ℚ := (rectArea a : ℤ) + (rectArea b : ℤ) - ia
  if au ≤ 0 then 0 else ia / au

/-- One scored NMS candidate: its position in the input arrays, its box row
and its score. -/
structure Cand where
  idx : Nat
  cbox : List ℤ
  score : ℚ
deriving DecidableEq

/-- Modelled from the spec: the enumeration of `(box, score)` pairs with
their original indices, as built inside `cv2.dnn.NMSBoxes`. -/
def mkCands : Nat → List (List ℤ × ℚ) → List Cand
  | _, [] => []
  | n, p :: ps => ⟨n, p.1, p.2⟩ :: mkCands (n + 1) ps

/-- Modelled from the spec: stable insertion of a candidate into a list kept
in descending score order; a tie goes after the already placed candidates,
realising the "original-index ascending as secondary key" tie-break of
§4.3. -/
def insertDesc (c : Cand) : List Cand → List Cand
  | [] => [c]
  | d :: ds => if d.score ≤ c.score then c :: d :: ds else d :: insertDesc c ds

/-- Modelled from the spec: the stable sort by descending score of §4.3. -/
def sortDesc (l : List Cand) : List Cand := l.foldr insertDesc []

/-- Modelled from the spec: the greedy suppression loop of §4.3 — take each
candidate in descending-score order and keep it exactly when its IoU with
every already kept box does not exceed the threshold. -/
def nmsLoop (thr : ℚ) : List Cand → List Cand → List Nat
  | [], _ => []
  | c :: rest, kept =>
    if kept.all (fun k => decide (rectOverlap k.cbox c.cbox ≤ thr)) then
      c.idx :: nmsLoop thr rest (kept ++ [c])
    else
      nmsLoop thr rest kept

/-- Modelled from the spec: `cv2.dnn.NMSBoxes(boxes, scores, score_threshold,
nms_threshold)` (outside this repository's sources) — drop candidates whose
score does not exceed `score_threshold`, stably sort the rest by descending
score, run the greedy loop, and return the kept original indices in
processing order (§4.3). -/
def NMSBoxes (boxes : List (List ℤ)) (scores : List ℚ) (st it : ℚ) : List Nat :=
  nmsLoop it
    (sortDesc ((mkCands 0 (boxes.zip scores)).filter (fun c => decide (st < c.score)))) []

/-- Modelled from the spec: `xywh2xyxy` from `yolo.utils` (not under `src/`)
— §4.2 step 3: `x1 = cx - w/2, y1 = cy - h/2, x2 = cx + w/2,
y2 = cy + h/2` (Python's true division makes the halves floats). -/
def xywh2xyxy (b : List ℤ) : List ℚ :=
  [(boxX b : ℚ) - (boxW b : ℚ) / 2, (boxY b : ℚ) - (boxH b : ℚ) / 2,
   (boxX b : ℚ) + (boxW b : ℚ) / 2, (boxY b : ℚ) + (boxH b : ℚ) / 2]

namespace YOLOv9

/-- `get_label_name`: the lookup `self.classes[class_id]`; an index past the
end of the class table raises (Python `IndexError`, the spec's
`UnknownClassId`). -/
def get_label_name (s : YOLOv9) (class_id : Nat) : Except PyErr String :=
  if h : class_id < s.classes.length then .ok (s.classes.get ⟨class_id, h⟩)
  else .error .unknownClassId

/-- The indices kept by the suppression call of `postprocess` (line 89). -/
def nmsIndices (s : YOLOv9) (preds : List (List ℚ)) (scores : List ℚ) : List Nat :=
  NMSBoxes (s.rescaledBoxes preds) scores s.score_threshold s.iou_threshold

/-- The final loop of `postprocess` (lines 90-97): for each surviving index
build the detection dict; a failing class-name lookup aborts the whole call
with no partial list returned. -/
def assembleDets (s : YOLOv9) (ids : List Nat) (sc : List ℚ) (bxs : List (List ℤ)) :
    List Nat → Except PyErr (List Detection)
  | [] => .ok []
  | i :: is =>
    (s.get_label_name (ids.getD i 0)).bind (fun nm =>
      (s.assembleDets ids sc bxs is).map (fun ds =>
        ⟨ids.getD i 0, sc.getD i 0, xywh2xyxy (bxs.getD i [0, 0, 0, 0]), nm⟩ :: ds))

/-- `postprocess` on the already-transposed `(anchors × fields)` matrix. -/
def postprocessCore (s : YOLOv9) (preds : List (List ℚ)) :
    Except PyErr (List Detection) :=
  (s.decoded preds).bind (fun d =>
    s.assembleDets (classIdsOf d.1) d.2 (s.rescaledBoxes d.1) (s.nmsIndices d.1 d.2))

/-- `postprocess(outputs)`: the raw (already batch-squeezed) output arrives
as a `(fields × anchors)` matrix and is transposed first
(`np.squeeze(outputs).T`). -/
def postprocess (s : YOLOv9) (outputs : List (List ℚ)) :
    Except PyErr (List Detection) :=
  s.postprocessCore outputs.transpose

/-- `preprocess`: records the current image's height and width on the
instance and hands the pixel transformation (cv2 colour conversion, resize,
scaling, layout) to the external collaborator `resize`.  Reading `self.img`
before any `detect` call raises (Python `AttributeError`). -/
def preprocess {τ : Type} (resize : Image → Nat → Nat → τ) (s : YOLOv9) :
    Except PyErr (YOLOv9 × τ) :=
  match s.img with
  | none => .error .attributeError
  | some im =>
    .ok ({ s with img_height := some im.height, img_width := some im.width },
         resize im s.input_width s.input_height)

/-- `detect(img)`: store the image on the instance, preprocess, run the
inference session (external collaborator `run`, returning the batch-squeezed
raw output) and postprocess.  The returned pair is the detector state after
the call together with the detection list. -/
def detect {τ : Type} (resize : Image → Nat → Nat → τ)
    (run : τ → List (List ℚ)) (s : YOLOv9) (img : Image) :
    Except PyErr (YOLOv9 × List Detection) :=
  let s1 := { s with img := some img }
  (s1.preprocess resize).bind (fun p =>
    (p.1.postprocess (run p.2)).map (fun dets => (p.1, dets)))

end YOLOv9


/-! ### Properties of the stable descending sort -/

/-- The order realised by the stable sort: strictly larger score first, ties
by ascending original index. -/
def lexCand (a b : Cand) : Prop :=
  b.score < a.score ∨ (a.score = b.score ∧ a.idx < b.idx)

theorem lexCand_score_le {a b : Cand} (h : lexCand a b) : b.score ≤ a.score := by
  rcases h with h | ⟨h, _⟩
  · exact le_of_lt h
  · exact le_of_eq h.symm

theorem mem_insertDesc {x c : Cand} :
    ∀ {l : List Cand}, x ∈ insertDesc c l ↔ x = c ∨ x ∈ l := by
  intro l
  induction l with
  | nil => simp [insertDesc]
  | cons d ds ih =>
    by_cases h : d.score ≤ c.score
    · simp [insertDesc, h]
    · simp only [insertDesc, if_neg h, List.mem_cons, ih]
      tauto

theorem mem_sortDesc {x : Cand} :
    ∀ {l : List Cand}, x ∈ sortDesc l ↔ x ∈ l := by
  intro l
  induction l with
  | nil => simp [sortDesc]
  | cons c cs ih =>
    show x ∈ insertDesc c (sortDesc cs) ↔ _
    rw [mem_insertDesc]
    simp [ih]

theorem insertDesc_pairwise_lex {c : Cand} :
    ∀ {l : List Cand}, l.Pairwise lexCand → (∀ y ∈ l, c.idx < y.idx) →
      (insertDesc c l).Pairwise lexCand := by
  intro l
  induction l with
  | nil => intro _ _; simp [insertDesc, List.pairwise_singleton]
  | cons d ds ih =>
    intro h1 h2
    rcases List.pairwise_cons.mp h1 with ⟨hd, hds⟩
    by_cases h : d.score ≤ c.score
    · simp only [insertDesc, if_pos h]
      refine List.pairwise_cons.mpr ⟨?_, h1⟩
      intro z hz
      have hzle : z.score ≤ c.score := by
        rcases List.mem_cons.mp hz with rfl | hz'
        · exact h
        · exact le_trans (lexCand_score_le (hd z hz')) h
      rcases lt_or_eq_of_le hzle with hlt | heq
      · exact Or.inl hlt
      · exact Or.inr ⟨heq.symm, h2 z hz⟩
    · simp only [insertDesc, if_neg h]
      refine List.pairwise_cons.mpr ⟨?_, ih hds (fun y hy => h2 y (List.mem_cons_of_mem _ hy))⟩
      intro z hz
      rcases mem_insertDesc.mp hz with rfl | hz'
      · exact Or.inl (lt_of_not_le h)
      · exact hd z hz'

theorem sortDesc_pairwise_lex :
    ∀ {l : List Cand}, (l.Pairwise fun a b => a.idx < b.idx) →
      (sortDesc l).Pairwise lexCand := by
  intro l
  induction l with
  | nil => intro _; simp [sortDesc]
  | cons c cs ih =>
    intro h
    rcases List.pairwise_cons.mp h with ⟨hc, hcs⟩
    show (insertDesc c (sortDesc cs)).Pairwise lexCand
    exact insertDesc_pairwise_lex (ih hcs) (fun y hy => hc y (mem_sortDesc.mp hy))

theorem sortDesc_eq_self :
    ∀ {l : List Cand}, (l.Pairwise fun a b => b.score ≤ a.score) → sortDesc l = l := by
  intro l
  induction l with
  | nil => intro _; rfl
  | cons c cs ih =>
    intro h
    rcases List.pairwise_cons.mp h with ⟨hc, hcs⟩
    show insertDesc c (sortDesc cs) = c :: cs
    rw [ih hcs]
    cases cs with
    | nil => rfl
    | cons d ds => simp [insertDesc, hc d (List.mem_cons_self d ds)]

/-! ### Properties of the candidate enumeration -/

theorem mkCands_mem_getD :
    ∀ (l : List (List ℤ × ℚ)) (n : Nat) (c : Cand), c ∈ mkCands n l →
      n ≤ c.idx ∧ c.idx - n < l.length ∧
        l.getD (c.idx - n) ([], 0) = (c.cbox, c.score) := by
  intro l
  induction l with
  | nil => intro n c hc; simp [mkCands] at hc
  | cons p ps ih =>
    intro n c hc
    rcases List.mem_cons.mp hc with rfl | hc'
    · simp
    · rcases ih (n + 1) c hc' with ⟨h1, h2, h3⟩
      have hn : n ≤ c.idx := le_trans (Nat.le_succ n) h1
      have hidx : c.idx - n = (c.idx - (n + 1)) + 1 := by omega
      refine ⟨hn, ?_, ?_⟩
      · rw [List.length_cons, hidx]; omega
      · rw [hidx]; simpa using h3

theorem mem_mkCands_pair :
    ∀ (l : List (List ℤ × ℚ)) (n : Nat) (c : Cand), c ∈ mkCands n l →
      (c.cbox, c.score) ∈ l := by
  intro l n c hc
  rcases mkCands_mem_getD l n c hc with ⟨_, h2, h3⟩
  rw [← h3, List.getD_eq_getElem _ _ h2]
  exact List.getElem_mem h2

theorem mkCands_pairwise {S : (List ℤ × ℚ) → (List ℤ × ℚ) → Prop} {T : Cand → Cand → Prop}
    (hST : ∀ (i j : Nat) (p q : List ℤ × ℚ), S p q → T ⟨i, p.1, p.2⟩ ⟨j, q.1, q.2⟩) :
    ∀ (l : List (List ℤ × ℚ)) (n : Nat), l.Pairwise S → (mkCands n l).Pairwise T := by
  intro l
  induction l with
  | nil => intro n _; simp [mkCands]
  | cons p ps ih =>
    intro n h
    rcases List.pairwise_cons.mp h with ⟨hp, hps⟩
    refine List.pairwise_cons.mpr ⟨?_, ih (n + 1) hps⟩
    intro c hc
    have hpair := mem_mkCands_pair ps (n + 1) c hc
    have : T ⟨n, p.1, p.2⟩ ⟨c.idx, c.cbox, c.score⟩ := hST n c.idx p _ (hp _ hpair)
    simpa using this

theorem mkCands_pairwise_idx :
    ∀ (l : List (List ℤ × ℚ)) (n : Nat), (mkCands n l).Pairwise fun a b => a.idx < b.idx := by
  intro l
  induction l with
  | nil => intro n; simp [mkCands]
  | cons p ps ih =>
    intro n
    refine List.pairwise_cons.mpr ⟨?_, ih (n + 1)⟩
    intro c hc
    have := (mkCands_mem_getD ps (n + 1) c hc).1
    simpa using lt_of_lt_of_le (Nat.lt_succ_self n) this

theorem mkCands_map_idx :
    ∀ (l : List (List ℤ × ℚ)) (n : Nat),
      (mkCands n l).map (fun c => c.idx) = List.range' n l.length := by
  intro l
  induction l with
  | nil => intro n; rfl
  | cons p ps ih => intro n; simp [mkCands, List.range', ih]

theorem getD_zip {α β : Type} :
    ∀ (xs : List α) (ys : List β) (k : Nat) (da : α) (db : β),
      k < (xs.zip ys).length → (xs.zip ys).getD k (da, db) = (xs.getD k da, ys.getD k db) := by
  intro xs
  induction xs with
  | nil => intro ys k da db h; simp at h
  | cons x xs ih =>
    intro ys k da db h
    cases ys with
    | nil => simp at h
    | cons y ys =>
      cases k with
      | zero => simp
      | succ k =>
        simp only [List.zip_cons_cons, List.getD_cons_succ] at h ⊢
        exact ih ys k da db (by simpa using h)

/-! ### Properties of the greedy suppression loop -/

theorem nmsLoop_sublist (thr : ℚ) :
    ∀ (cands kept : List Cand),
      (nmsLoop thr cands kept).Sublist (cands.map fun c => c.idx) := by
  intro cands
  induction cands with
  | nil => intro kept; simp [nmsLoop]
  | cons c rest ih =>
    intro kept
    by_cases h : kept.all (fun k => decide (rectOverlap k.cbox c.cbox ≤ thr))
    · simpa [nmsLoop, h] using List.Sublist.cons₂ c.idx (ih (kept ++ [c]))
    · simpa [nmsLoop, h] using List.Sublist.cons c.idx (ih kept)

theorem nmsLoop_mem (thr : ℚ) {i : Nat} {cands kept : List Cand}
    (h : i ∈ nmsLoop thr cands kept) : ∃ c ∈ cands, c.idx = i := by
  have := (nmsLoop_sublist thr cands kept).subset h
  rcases List.mem_map.mp this with ⟨c, hc, hci⟩
  exact ⟨c, hc, hci⟩

theorem nmsLoop_kept_compat (thr : ℚ) (boxF : Nat → List ℤ) :
    ∀ (cands kept : List Cand), (∀ c ∈ cands, c.cbox = boxF c.idx) →
      ∀ i ∈ nmsLoop thr cands kept, ∀ k ∈ kept, rectOverlap k.cbox (boxF i) ≤ thr := by
  intro cands
  induction cands with
  | nil => intro kept _ i hi; simp [nmsLoop] at hi
  | cons c rest ih =>
    intro kept hbox i hi k hk
    have hbc : c.cbox = boxF c.idx := hbox c (List.mem_cons_self c rest)
    have hbrest : ∀ d ∈ rest, d.cbox = boxF d.idx :=
      fun d hd => hbox d (List.mem_cons_of_mem _ hd)
    by_cases h : kept.all (fun k => decide (rectOverlap k.cbox c.cbox ≤ thr))
    · rw [nmsLoop, if_pos h] at hi
      rcases List.mem_cons.mp hi with rfl | hi'
      · have := List.all_eq_true.mp h k hk
        rw [← hbc]
        exact of_decide_eq_true this
      · exact ih (kept ++ [c]) hbrest i hi' k (List.mem_append_left _ hk)
    · rw [nmsLoop, if_neg h] at hi
      exact ih kept hbrest i hi k hk

theorem nmsLoop_pairwise_overlap (thr : ℚ) (boxF : Nat → List ℤ) :
    ∀ (cands kept : List Cand), (∀ c ∈ cands, c.cbox = boxF c.idx) →
      (nmsLoop thr cands kept).Pairwise fun i j => rectOverlap (boxF i) (boxF j) ≤ thr := by
  intro cands
  induction cands with
  | nil => intro kept _; simp [nmsLoop]
  | cons c rest ih =>
    intro kept hbox
    have hbc : c.cbox = boxF c.idx := hbox c (List.mem_cons_self c rest)
    have hbrest : ∀ d ∈ rest, d.cbox = boxF d.idx :=
      fun d hd => hbox d (List.mem_cons_of_mem _ hd)
    by_cases h : kept.all (fun k => decide (rectOverlap k.cbox c.cbox ≤ thr))
    · rw [nmsLoop, if_pos h]
      refine List.pairwise_cons.mpr ⟨?_, ih (kept ++ [c]) hbrest⟩
      intro j hj
      have := nmsLoop_kept_compat thr boxF rest (kept ++ [c]) hbrest j hj c
        (List.mem_append_right _ (List.mem_singleton_self c))
      rwa [hbc] at this
    · rw [nmsLoop, if_neg h]
      exact ih kept hbrest

theorem nmsLoop_keep_all (thr : ℚ) :
    ∀ (cands kept : List Cand),
      (cands.Pairwise fun a b => rectOverlap a.cbox b.cbox ≤ thr) →
      (∀ k ∈ kept, ∀ c ∈ cands, rectOverlap k.cbox c.cbox ≤ thr) →
      nmsLoop thr cands kept = cands.map fun c => c.idx := by
  intro cands
  induction cands with
  | nil => intro kept _ _; rfl
  | cons c rest ih =>
    intro kept h1 h2
    rcases List.pairwise_cons.mp h1 with ⟨hc, hrest⟩
    have hall : kept.all (fun k => decide (rectOverlap k.cbox c.cbox ≤ thr)) := by
      refine List.all_eq_true.mpr fun k hk => decide_eq_true ?_
      exact h2 k hk c (List.mem_cons_self c rest)
    rw [nmsLoop, if_pos hall, List.map_cons]
    congr 1
    refine ih (kept ++ [c]) hrest ?_
    intro k hk d hd
    rcases List.mem_append.mp hk with hk' | hk'
    · exact h2 k hk' d (List.mem_cons_of_mem _ hd)
    · rw [List.mem_singleton.mp hk']
      exact hc d hd

/-! ### Properties of `NMSBoxes` -/

theorem NMSBoxes_cand_link {boxes : List (List ℤ)} {scores : List ℚ} {st : ℚ} {c : Cand}
    (hc : c ∈ sortDesc ((mkCands 0 (boxes.zip scores)).filter
      (fun c => decide (st < c.score)))) :
    c.cbox = boxes.getD c.idx [] ∧ c.score = scores.getD c.idx 0 ∧ st < c.score := by
  have hmem := mem_sortDesc.mp hc
  rcases List.mem_filter.mp hmem with ⟨hmk, hst⟩
  rcases mkCands_mem_getD _ 0 c hmk with ⟨-, h2, h3⟩
  rw [Nat.sub_zero] at h2 h3
  rw [getD_zip boxes scores c.idx [] 0 h2] at h3
  have hbx : boxes.getD c.idx [] = c.cbox := congrArg Prod.fst h3
  have hsc : scores.getD c.idx 0 = c.score := congrArg Prod.snd h3
  exact ⟨hbx.symm, hsc.symm, of_decide_eq_true hst⟩

theorem NMSBoxes_mem_score {boxes : List (List ℤ)} {scores : List ℚ} {st it : ℚ} {i : Nat}
    (h : i ∈ NMSBoxes boxes scores st it) : st < scores.getD i 0 := by
  rcases nmsLoop_mem it h with ⟨c, hc, rfl⟩
  rcases NMSBoxes_cand_link hc with ⟨-, hsc, hst⟩
  rwa [← hsc]

theorem NMSBoxes_pairwise_lex (boxes : List (List ℤ)) (scores : List ℚ) (st it : ℚ) :
    (NMSBoxes boxes scores st it).Pairwise fun i j =>
      scores.getD j 0 < scores.getD i 0 ∨
        (scores.getD i 0 = scores.getD j 0 ∧ i < j) := by
  have hidx : ((mkCands 0 (boxes.zip scores)).filter
      (fun c => decide (st < c.score))).Pairwise fun a b => a.idx < b.idx :=
    List.Pairwise.filter _ (mkCands_pairwise_idx _ 0)
  have hlex := sortDesc_pairwise_lex hidx
  have hlex' : (sortDesc ((mkCands 0 (boxes.zip scores)).filter
      (fun c => decide (st < c.score)))).Pairwise fun a b =>
        scores.getD b.idx 0 < scores.getD a.idx 0 ∨
          (scores.getD a.idx 0 = scores.getD b.idx 0 ∧ a.idx < b.idx) := by
    refine hlex.imp_of_mem ?_
    intro a b ha hb hab
    rcases NMSBoxes_cand_link ha with ⟨-, hsa, -⟩
    rcases NMSBoxes_cand_link hb with ⟨-, hsb, -⟩
    rw [← hsa, ← hsb]
    exact hab
  have hmap : ((sortDesc ((mkCands 0 (boxes.zip scores)).filter
      (fun c => decide (st < c.score)))).map (fun c => c.idx)).Pairwise
        (fun i j => scores.getD j 0 < scores.getD i 0 ∨
          (scores.getD i 0 = scores.getD j 0 ∧ i < j)) :=
    List.pairwise_map.mpr hlex'
  exact List.Pairwise.sublist (nmsLoop_sublist it _ []) hmap

theorem NMSBoxes_pairwise_overlap (boxes : List (List ℤ)) (scores : List ℚ) (st it : ℚ) :
    (NMSBoxes boxes scores st it).Pairwise fun i j =>
      rectOverlap (boxes.getD i []) (boxes.getD j []) ≤ it := by
  refine nmsLoop_pairwise_overlap it (fun i => boxes.getD i []) _ [] ?_
  intro c hc
  exact (NMSBoxes_cand_link hc).1

/-! ### Properties of the decode prefilter -/

theorem anchorScores_forall₂ :
    ∀ {preds : List (List ℚ)} {ss : List ℚ}, anchorScores preds = .ok ss →
      List.Forall₂ (fun r m => (r.drop 4).max? = some m) preds ss := by
  intro preds
  induction preds with
  | nil =>
    intro ss h
    cases h
    exact List.Forall₂.nil
  | cons r rs ih =>
    intro ss h
    rw [anchorScores] at h
    cases hm : (r.drop 4).max? with
    | none => rw [hm] at h; cases h
    | some m =>
      rw [hm] at h
      cases hrec : anchorScores rs with
      | error e => rw [hrec] at h; cases h
      | ok ms =>
        rw [hrec] at h
        cases h
        exact List.Forall₂.cons hm (ih hrec)

theorem anchorScores_length {preds : List (List ℚ)} {ss : List ℚ}
    (h : anchorScores preds = .ok ss) : preds.length = ss.length :=
  (anchorScores_forall₂ h).length_eq

theorem anchorScores_ok_of :
    ∀ {preds : List (List ℚ)}, (∀ r ∈ preds, r.drop 4 ≠ []) →
      ∃ ss, anchorScores preds = .ok ss := by
  intro preds
  induction preds with
  | nil => intro _; exact ⟨[], rfl⟩
  | cons r rs ih =>
    intro h
    have hr : r.drop 4 ≠ [] := h r (List.mem_cons_self r rs)
    cases hm : (r.drop 4).max? with
    | none => exact absurd (List.max?_eq_none_iff.mp hm) hr
    | some m =>
      rcases ih (fun q hq => h q (List.mem_cons_of_mem _ hq)) with ⟨ms, hms⟩
      exact ⟨m :: ms, by rw [anchorScores, hm, hms]; rfl⟩

theorem anchorScores_error_of :
    ∀ {preds : List (List ℚ)}, (∃ r ∈ preds, r.drop 4 = []) →
      anchorScores preds = .error .valueError := by
  intro preds
  induction preds with
  | nil => intro h; simp at h
  | cons r rs ih =>
    intro h
    cases hm : (r.drop 4).max? with
    | none => rw [anchorScores, hm]
    | some m =>
      rcases h with ⟨q, hq, hq4⟩
      rcases List.mem_cons.mp hq with rfl | hq'
      · rw [hq4] at hm; cases hm
      · rw [anchorScores, hm, ih ⟨q, hq', hq4⟩]
        rfl

theorem filterByMask_cons (b : Bool) (mask : List Bool) (x : α) (xs : List α) :
    filterByMask (b :: mask) (x :: xs)
      = (if b then [x] else []) ++ filterByMask mask xs := by
  cases b <;> simp [filterByMask]

theorem filterByMask_self_map (p : ℚ → Bool) :
    ∀ (ss : List ℚ), filterByMask (ss.map p) ss = ss.filter p := by
  intro ss
  induction ss with
  | nil => rfl
  | cons x xs ih =>
    rw [List.map_cons, filterByMask_cons, ih, List.filter_cons]
    cases p x <;> simp

theorem filterByMask_zip (p : ℚ → Bool) :
    ∀ (xs : List α) (ss : List ℚ), xs.length = ss.length →
      (filterByMask (ss.map p) xs).zip (filterByMask (ss.map p) ss)
        = (xs.zip ss).filter (fun q => p q.2) := by
  intro xs
  induction xs with
  | nil =>
    intro ss h
    have : ss = [] := List.eq_nil_of_length_eq_zero h.symm
    subst this
    rfl
  | cons x xs ih =>
    intro ss h
    cases ss with
    | nil => cases h
    | cons m ms =>
      rw [List.map_cons, filterByMask_cons, filterByMask_cons, List.zip_cons_cons,
        List.filter_cons]
      have hlen : xs.length = ms.length := by simpa using h
      cases hp : p m with
      | false => simpa using ih ms hlen
      | true => simp only [if_pos rfl]; simpa using congrArg (List.cons (x, m)) (ih ms hlen)

theorem filterByMask_all_false :
    ∀ (mask : List Bool) (xs : List α), (∀ b ∈ mask, b = false) →
      filterByMask mask xs = [] := by
  intro mask
  induction mask with
  | nil => intro xs _; simp [filterByMask]
  | cons b bs ih =>
    intro xs h
    cases xs with
    | nil => simp [filterByMask]
    | cons x xs' =>
      rw [filterByMask_cons, h b (List.mem_cons_self b bs)]
      simpa using ih xs' (fun b' hb => h b' (List.mem_cons_of_mem _ hb))

/-! ### Properties of the assembly loop -/

theorem get_label_name_of_lt {s : YOLOv9} {c : Nat} (h : c < s.classes.length) :
    s.get_label_name c = .ok (s.classes.get ⟨c, h⟩) := by
  rw [YOLOv9.get_label_name, dif_pos h]

theorem get_label_name_of_ge {s : YOLOv9} {c : Nat} (h : s.classes.length ≤ c) :
    s.get_label_name c = .error .unknownClassId := by
  rw [YOLOv9.get_label_name, dif_neg (not_lt.mpr h)]

theorem assembleDets_ok_map {s : YOLOv9} {ids : List Nat} {sc : List ℚ}
    {bxs : List (List ℤ)} :
    ∀ {l : List Nat} {ds : List Detection}, s.assembleDets ids sc bxs l = .ok ds →
      ds.map (fun d => d.confidence) = l.map (fun i => sc.getD i 0) ∧
      ds.map (fun d => d.box) = l.map (fun i => xywh2xyxy (bxs.getD i [0, 0, 0, 0])) ∧
      ds.map (fun d => d.class_index) = l.map (fun i => ids.getD i 0) := by
  intro l
  induction l with
  | nil =>
    intro ds h
    cases h
    exact ⟨rfl, rfl, rfl⟩
  | cons i is ih =>
    intro ds h
    rw [YOLOv9.assembleDets] at h
    cases hnm : s.get_label_name (ids.getD i 0) with
    | error e => rw [hnm] at h; cases h
    | ok nm =>
      rw [hnm] at h
      cases hrec : s.assembleDets ids sc bxs is with
      | error e => rw [hrec] at h; cases h
      | ok ds' =>
        rw [hrec] at h
        cases h
        rcases ih hrec with ⟨h1, h2, h3⟩
        refine ⟨?_, ?_, ?_⟩ <;> simp [h1, h2, h3]

theorem assembleDets_error {s : YOLOv9} {ids : List Nat} {sc : List ℚ}
    {bxs : List (List ℤ)} :
    ∀ {l : List Nat} {i : Nat}, i ∈ l → s.classes.length ≤ ids.getD i 0 →
      s.assembleDets ids sc bxs l = .error .unknownClassId := by
  intro l
  induction l with
  | nil => intro i hi _; simp at hi
  | cons j js ih =>
    intro i hi hge
    rw [YOLOv9.assembleDets]
    cases hnm : s.get_label_name (ids.getD j 0) with
    | error e =>
      have : e = .unknownClassId := by
        by_cases hj : ids.getD j 0 < s.classes.length
        · rw [get_label_name_of_lt hj] at hnm; cases hnm
        · rw [get_label_name_of_ge (not_lt.mp hj)] at hnm
          exact (Except.error.injEq _ _).mp hnm.symm
      rw [this]
      rfl
    | ok nm =>
      rcases List.mem_cons.mp hi with rfl | hi'
      · rw [get_label_name_of_ge hge] at hnm; cases hnm
      · rw [ih hi' hge]
        rfl

/-! ### `postprocess` depends only on the configuration fields -/

theorem decoded_congr {s t : YOLOv9} (h : s.conf_threshold = t.conf_threshold)
    (preds : List (List ℚ)) : s.decoded preds = t.decoded preds := by
  rw [YOLOv9.decoded, YOLOv9.decoded, h]

theorem rescaleRow_congr {s t : YOLOv9} (h1 : s.input_width = t.input_width)
    (h2 : s.input_height = t.input_height) (h3 : s.image_width = t.image_width)
    (h4 : s.image_height = t.image_height) (r : List ℚ) :
    s.rescaleRow r = t.rescaleRow r := by
  rw [YOLOv9.rescaleRow, YOLOv9.rescaleRow, h1, h2, h3, h4]

theorem rescaledBoxes_congr {s t : YOLOv9} (h1 : s.input_width = t.input_width)
    (h2 : s.input_height = t.input_height) (h3 : s.image_width = t.image_width)
    (h4 : s.image_height = t.image_height) (preds : List (List ℚ)) :
    s.rescaledBoxes preds = t.rescaledBoxes preds := by
  rw [YOLOv9.rescaledBoxes, YOLOv9.rescaledBoxes]
  exact List.map_congr_left (fun r _ => rescaleRow_congr h1 h2 h3 h4 r)

theorem get_label_name_congr {s t : YOLOv9} (hcl : s.classes = t.classes) (c : Nat) :
    s.get_label_name c = t.get_label_name c := by
  rw [YOLOv9.get_label_name, YOLOv9.get_label_name]
  exact congrArg
    (fun cs : List String =>
      if h : c < cs.length then Except.ok (cs.get ⟨c, h⟩)
      else Except.error PyErr.unknownClassId) hcl

theorem assembleDets_congr {s t : YOLOv9} (hcl : s.classes = t.classes)
    (ids : List Nat) (sc : List ℚ) (bxs : List (List ℤ)) :
    ∀ (l : List Nat), s.assembleDets ids sc bxs l = t.assembleDets ids sc bxs l := by
  intro l
  induction l with
  | nil => rfl
  | cons i is ih =>
    rw [YOLOv9.assembleDets, YOLOv9.assembleDets, get_label_name_congr hcl, ih]

theorem postprocess_congr {s t : YOLOv9} (h : configOf s = configOf t)
    (outputs : List (List ℚ)) : s.postprocess outputs = t.postprocess outputs := by
  have hc : s.conf_threshold = t.conf_threshold := congrArg ConfigView.conf_threshold h
  have hi : s.iou_threshold = t.iou_threshold := congrArg ConfigView.iou_threshold h
  have hs : s.score_threshold = t.score_threshold := congrArg ConfigView.score_threshold h
  have h1 : s.input_height = t.input_height := congrArg ConfigView.input_height h
  have h2 : s.input_width = t.input_width := congrArg ConfigView.input_width h
  have h3 : s.image_width = t.image_width := congrArg ConfigView.image_width h
  have h4 : s.image_height = t.image_height := congrArg ConfigView.image_height h
  have hcl : s.classes = t.classes := congrArg ConfigView.classes h
  rw [YOLOv9.postprocess, YOLOv9.postprocess, YOLOv9.postprocessCore,
    YOLOv9.postprocessCore, decoded_congr hc]
  cases t.decoded outputs.transpose with
  | error e => rfl
  | ok d =>
    show Except.bind _ _ = Except.bind _ _
    simp only [Except.bind]
    rw [YOLOv9.nmsIndices, YOLOv9.nmsIndices, rescaledBoxes_congr h2 h1 h3 h4, hs, hi,
      assembleDets_congr hcl]

/-! ### Unfolding `detect` -/

/-- The state a `detect` call leaves behind: the argument image and its
dimensions are written to the instance's mutable fields. -/
def afterDetect (s : YOLOv9) (img : Image) : YOLOv9 :=
  { s with img := some img, img_height := some img.height, img_width := some img.width }

theorem configOf_afterDetect (s : YOLOv9) (img : Image) :
    configOf (afterDetect s img) = configOf s := rfl

theorem detect_eq {τ : Type} (resize : Image → Nat → Nat → τ)
    (run : τ → List (List ℚ)) (s : YOLOv9) (img : Image) :
    YOLOv9.detect resize run s img
      = ((afterDetect s img).postprocess
          (run (resize img s.input_width s.input_height))).map
            (fun dets => (afterDetect s img, dets)) := rfl

/-! ### Helper: unfolding `postprocess` after a successful decode -/

theorem postprocess_eq_assemble {s : YOLOv9} {o : List (List ℚ)}
    {p' : List (List ℚ)} {sc' : List ℚ}
    (h : s.decoded o.transpose = .ok (p', sc')) :
    s.postprocess o
      = s.assembleDets (YOLOv9.classIdsOf p') sc' (s.rescaledBoxes p')
          (s.nmsIndices p' sc') := by
  rw [YOLOv9.postprocess, YOLOv9.postprocessCore, h]
  rfl

theorem NMSBoxes_nil_of_all_below {boxes : List (List ℤ)} {scores : List ℚ} {st it : ℚ}
    (h : ∀ x ∈ scores, x < st) : NMSBoxes boxes scores st it = [] := by
  rw [NMSBoxes]
  have hfil : (mkCands 0 (boxes.zip scores)).filter (fun c => decide (st < c.score)) = [] := by
    refine List.filter_eq_nil_iff.mpr ?_
    intro c hc
    have hsc : c.score ∈ scores := (List.of_mem_zip (mem_mkCands_pair _ 0 c hc)).2
    simpa using not_lt.mpr (le_of_lt (h c.score hsc))
  rw [hfil]
  rfl

/-! ### The claims -/

/-- A sample detector configuration used by the concrete witnesses:
thresholds `conf = 2/5`, `iou = 2/5`, `score = 1/10`, model input `640×640`,
original size `640×640`, two classes. -/
def sampleCfg : YOLOv9 :=
  ⟨2/5, 2/5, 1/10, none, none, none, none, none, 640, 640, 640, 640, ["a", "b"], none⟩

/-- A sample image for the `detect`-level witnesses and counterexamples. -/
def img0 : Image := ⟨20, 30, []⟩

/-- Claim C3: exactly the anchors whose maximum class score strictly exceeds
the confidence threshold survive the decode prefilter — every surviving score
is `> conf_threshold`, and the surviving (row, score) pairs are precisely the
original pairs above the threshold, in order. -/
theorem decode_keeps_exactly_above_conf (s : YOLOv9) (preds : List (List ℚ))
    (ss : List ℚ) (p' : List (List ℚ)) (sc' : List ℚ)
    (h0 : anchorScores preds = .ok ss)
    (h1 : s.decoded preds = .ok (p', sc')) :
    (∀ x ∈ sc', s.conf_threshold < x) ∧
    p'.zip sc' = (preds.zip ss).filter (fun q => decide (s.conf_threshold < q.2)) := by
  rw [YOLOv9.decoded, h0] at h1
  simp only [Except.map] at h1
  have hp : filterByMask (convMask s.conf_threshold ss) preds = p' :=
    congrArg Prod.fst (Except.ok.inj h1)
  have hsc : filterByMask (convMask s.conf_threshold ss) ss = sc' :=
    congrArg Prod.snd (Except.ok.inj h1)
  constructor
  · intro x hx
    rw [← hsc, convMask, filterByMask_self_map] at hx
    exact of_decide_eq_true (List.mem_filter.mp hx).2
  · rw [← hp, ← hsc, convMask]
    exact filterByMask_zip _ preds ss (anchorScores_length h0)

/-- Concrete instance of C3: two anchors with scores `1/2` and `1/5` against
`conf_threshold = 2/5`; exactly the first survives. -/
theorem decode_keeps_exactly_above_conf_witness :
    (∀ x ∈ [(1 : ℚ)/2], sampleCfg.conf_threshold < x) ∧
    ([[(0 : ℚ), 0, 0, 0, 1/2]].zip [(1 : ℚ)/2])
      = (([[(0 : ℚ), 0, 0, 0, 1/2], [0, 0, 0, 0, 1/5]].zip [(1 : ℚ)/2, 1/5]).filter
          (fun q => decide (sampleCfg.conf_threshold < q.2))) :=
  decode_keeps_exactly_above_conf sampleCfg
    [[0, 0, 0, 0, 1/2], [0, 0, 0, 0, 1/5]] [1/2, 1/5] [[0, 0, 0, 0, 1/2]] [1/2]
    (by with_unfolding_all decide) (by with_unfolding_all decide)

/-- A detector whose `score_threshold` (1/2) exceeds its `conf_threshold`
(1/10), as the spec allows: the two are independent knobs. -/
def cfg4 : YOLOv9 :=
  ⟨1/10, 2/5, 1/2, none, none, none, none, none, 640, 640, 640, 640, ["a", "b"], none⟩

/-- Claim C4: candidates whose score is below `score_threshold` are excluded
from suppression entirely — no surviving index carries a score below the
threshold — and when every decoded candidate is below the threshold (even a
non-empty set that passed the confidence prefilter), `detect` returns the
empty detection list with no error. -/
theorem below_score_threshold_excluded {τ : Type} (resize : Image → Nat → Nat → τ)
    (run : τ → List (List ℚ)) (s : YOLOv9) (img : Image)
    (p' : List (List ℚ)) (sc' : List ℚ)
    (h1 : s.decoded (run (resize img s.input_width s.input_height)).transpose
      = .ok (p', sc')) :
    (∀ i ∈ s.nmsIndices p' sc', ¬ sc'.getD i 0 < s.score_threshold) ∧
    ((∀ x ∈ sc', x < s.score_threshold) →
      YOLOv9.detect resize run s img = .ok (afterDetect s img, [])) := by
  constructor
  · intro i hi
    rw [YOLOv9.nmsIndices] at hi
    exact not_lt.mpr (le_of_lt (NMSBoxes_mem_score hi))
  · intro hall
    rw [detect_eq]
    have h1' : (afterDetect s img).decoded
        (run (resize img s.input_width s.input_height)).transpose = .ok (p', sc') := h1
    have hall' : ∀ x ∈ sc', x < (afterDetect s img).score_threshold := hall
    have hpp : (afterDetect s img).postprocess
        (run (resize img s.input_width s.input_height)) = .ok [] := by
      rw [postprocess_eq_assemble h1', YOLOv9.nmsIndices,
        NMSBoxes_nil_of_all_below hall']
      rfl
    rw [hpp]
    rfl

set_option maxRecDepth 8000 in
/-- Concrete instance of C4: one anchor with score `1/5` passes the
confidence prefilter (`1/10`) but sits below the score threshold (`1/2`):
`detect` returns the empty list. -/
theorem below_score_threshold_excluded_witness :
    YOLOv9.detect (fun _ _ _ => ())
        (fun _ => [[10], [10], [4], [4], [1/5], [1/10]]) cfg4 img0
      = .ok (afterDetect cfg4 img0, []) :=
  (below_score_threshold_excluded (fun _ _ _ => ())
      (fun _ => [[10], [10], [4], [4], [1/5], [1/10]]) cfg4 img0
      [[10, 10, 4, 4, 1/5, 1/10]] [1/5] (by with_unfolding_all decide)).2
    (by with_unfolding_all decide)

/-- A detector with a single-entry class table, so a decoded `classId = 1`
has no entry. -/
def cfg6 : YOLOv9 :=
  ⟨2/5, 2/5, 1/10, none, none, none, none, none, 640, 640, 640, 640, ["a"], none⟩

/-- Claim C6: a surviving `classId` with no entry in the class table makes
the lookup fail (Python `IndexError`, the spec's `UnknownClassId`) and the
whole `postprocess` call fails with that error instead of returning any
detection list. -/
theorem unknown_class_id_fails (s : YOLOv9) (o : List (List ℚ))
    (p' : List (List ℚ)) (sc' : List ℚ) (i : Nat)
    (h1 : s.decoded o.transpose = .ok (p', sc'))
    (h2 : i ∈ s.nmsIndices p' sc')
    (h3 : s.classes.length ≤ (YOLOv9.classIdsOf p').getD i 0) :
    s.get_label_name ((YOLOv9.classIdsOf p').getD i 0) = .error .unknownClassId ∧
    s.postprocess o = .error .unknownClassId := by
  refine ⟨get_label_name_of_ge h3, ?_⟩
  rw [postprocess_eq_assemble h1]
  exact assembleDets_error h2 h3

/-- Concrete instance of C6: one anchor whose argmax class id is `1` against
a one-entry class table; `postprocess` fails with `unknownClassId`. -/
theorem unknown_class_id_fails_witness :
    cfg6.get_label_name
        ((YOLOv9.classIdsOf [[(10 : ℚ), 10, 4, 4, 1/10, 9/10]]).getD 0 0)
      = .error .unknownClassId ∧
    cfg6.postprocess [[10], [10], [4], [4], [1/10], [9/10]] = .error .unknownClassId :=
  unknown_class_id_fails cfg6 [[10], [10], [4], [4], [1/10], [9/10]]
    [[10, 10, 4, 4, 1/10, 9/10]] [9/10] 0
    (by with_unfolding_all decide) (by with_unfolding_all decide)
    (by with_unfolding_all decide)

theorem forall₂_scores_le {t : ℚ} :
    ∀ {preds : List (List ℚ)} {ss : List ℚ},
      List.Forall₂ (fun r m => (r.drop 4).max? = some m) preds ss →
      (∀ r ∈ preds, (r.drop 4).max?.getD 0 ≤ t) → ∀ x ∈ ss, x ≤ t := by
  intro preds ss h
  induction h with
  | nil => intro _ x hx; simp at hx
  | cons hR hrest ih =>
    rename_i r m rs ms
    intro h2 x hx
    rcases List.mem_cons.mp hx with rfl | hx'
    · have := h2 r (List.mem_cons_self _ _)
      rwa [hR, Option.getD_some] at this
    · exact ih (fun q hq => h2 q (List.mem_cons_of_mem _ hq)) x hx'

/-- Helper for C7: `postprocess` on a tensor in which no anchor's maximum
class score exceeds the confidence threshold (rows well formed) returns the
empty list. -/
theorem postprocess_empty_of_all_le (s : YOLOv9) (o : List (List ℚ))
    (h1 : ∀ r ∈ o.transpose, r.drop 4 ≠ [])
    (h2 : ∀ r ∈ o.transpose, (r.drop 4).max?.getD 0 ≤ s.conf_threshold) :
    s.postprocess o = .ok [] := by
  obtain ⟨ss, hss⟩ := anchorScores_ok_of h1
  have hle : ∀ x ∈ ss, x ≤ s.conf_threshold :=
    forall₂_scores_le (anchorScores_forall₂ hss) h2
  have hmask : ∀ b ∈ convMask s.conf_threshold ss, b = false := by
    intro b hb
    rcases List.mem_map.mp hb with ⟨x, hx, rfl⟩
    exact decide_eq_false (not_lt.mpr (hle x hx))
  have hdec : s.decoded o.transpose = .ok ([], []) := by
    rw [YOLOv9.decoded, hss]
    simp only [Except.map]
    rw [filterByMask_all_false _ _ hmask, filterByMask_all_false _ _ hmask]
  rw [postprocess_eq_assemble hdec]
  rfl

/-- Claim C7: when no anchor of the raw output exceeds the confidence
threshold (and every anchor row is well formed, i.e. has class-score
fields), `detect` succeeds with the empty detection list — no error is
raised. -/
theorem empty_when_no_anchor_passes {τ : Type} (resize : Image → Nat → Nat → τ)
    (run : τ → List (List ℚ)) (s : YOLOv9) (img : Image)
    (h1 : ∀ r ∈ (run (resize img s.input_width s.input_height)).transpose,
      r.drop 4 ≠ [])
    (h2 : ∀ r ∈ (run (resize img s.input_width s.input_height)).transpose,
      (r.drop 4).max?.getD 0 ≤ s.conf_threshold) :
    YOLOv9.detect resize run s img = .ok (afterDetect s img, []) := by
  rw [detect_eq]
  have hpp : (afterDetect s img).postprocess
      (run (resize img s.input_width s.input_height)) = .ok [] :=
    postprocess_empty_of_all_le (afterDetect s img) _ h1 h2
  rw [hpp]
  rfl

set_option maxRecDepth 8000 in
/-- Concrete instance of C7: a single anchor with maximum class score `1/5`
against `conf_threshold = 2/5`; `detect` returns the empty list, no
error. -/
theorem empty_when_no_anchor_passes_witness :
    YOLOv9.detect (fun _ _ _ => ())
        (fun _ => [[0], [0], [0], [0], [1/5], [1/10]]) sampleCfg img0
      = .ok (afterDetect sampleCfg img0, []) :=
  empty_when_no_anchor_passes (fun _ _ _ => ())
    (fun _ => [[0], [0], [0], [0], [1/5], [1/10]]) sampleCfg img0
    (by with_unfolding_all decide) (by with_unfolding_all decide)

/-- Refutation of claim C5 at a concrete input: `sampleCfg` is configured
for `C = 2` classes, so rows should carry `4 + 2 = 6` fields, yet a tensor
whose anchor rows carry `7` fields is decoded and postprocessed without any
error — the decode step has no shape validation and no `ShapeMismatch`
failure exists. -/
theorem shape_mismatch_counterexample :
    (∀ r ∈ ([[10], [10], [4], [4], [9/10], [1/10], [1/10]] :
        List (List ℚ)).transpose, r.length = 7) ∧
    sampleCfg.classes.length = 2 ∧
    sampleCfg.postprocess [[10], [10], [4], [4], [9/10], [1/10], [1/10]]
      = .ok [⟨0, 9/10, [8, 8, 12, 12], "a"⟩] := by
  refine ⟨by with_unfolding_all decide, by with_unfolding_all decide,
    by with_unfolding_all decide⟩

/-- Claim C5 as amended: the decode step performs no shape validation and no
`ShapeMismatch` failure exists.  For every configured detector (in
particular, for every class count) the decode step succeeds on any tensor
whose rows each carry at least five fields, the score being the maximum over
all fields after the fourth; a tensor with a row of four or fewer fields
fails the decode step with the unnamed numpy reduction `ValueError`, never a
`ShapeMismatch`.  (Later assembly may still fail with `unknownClassId` when
the extra fields push an argmax past the class table; the decode step itself
raises nothing for a mismatched class count.) -/
theorem decode_no_shape_check (s : YOLOv9) (rows rows' : List (List ℚ))
    (h : ∀ r ∈ rows, r.drop 4 ≠ []) (h' : ∃ r ∈ rows', r.drop 4 = []) :
    (∃ d, s.decoded rows = .ok d) ∧
    s.decoded rows' = .error .valueError := by
  obtain ⟨ss, hss⟩ := anchorScores_ok_of h
  constructor
  · exact ⟨_, by rw [YOLOv9.decoded, hss]; rfl⟩
  · rw [YOLOv9.decoded, anchorScores_error_of h']
    rfl

/-- Concrete instance of the amended C5: under `sampleCfg` (class count 2,
so `4 + 2 = 6` fields expected) a five-field row passes the decode step,
while a four-field row fails it with the unnamed reduction error. -/
theorem decode_no_shape_check_witness :
    (∃ d, sampleCfg.decoded [[(1 : ℚ), 2, 3, 4, 5]] = .ok d) ∧
    sampleCfg.decoded [[(1 : ℚ), 2, 3, 4]] = .error .valueError :=
  decode_no_shape_check sampleCfg [[1, 2, 3, 4, 5]] [[1, 2, 3, 4]]
    (by with_unfolding_all decide) (by with_unfolding_all decide)

/-- Refutation of claim C2 at a concrete input: the box list the rescaler
hands to the suppression call is still in center-size `(cx, cy, w, h)`
format — converting it with the corner formula changes it — while the
corner conversion `xywh2xyxy` is applied only after suppression, to the
surviving box of the final detection. -/
theorem corner_before_suppression_counterexample :
    sampleCfg.rescaledBoxes [[(10 : ℚ), 10, 4, 4, 9/10]] = [[10, 10, 4, 4]] ∧
    (sampleCfg.rescaledBoxes [[(10 : ℚ), 10, 4, 4, 9/10]]).map xywh2xyxy
      ≠ (sampleCfg.rescaledBoxes [[(10 : ℚ), 10, 4, 4, 9/10]]).map
          (fun b => b.map (fun z => (z : ℚ))) ∧
    sampleCfg.postprocess [[10], [10], [4], [4], [9/10]]
      = .ok [⟨0, 9/10, [8, 8, 12, 12], "a"⟩] := by
  refine ⟨by with_unfolding_all decide, by with_unfolding_all decide,
    by with_unfolding_all decide⟩

/-- Claim C2 as amended: the suppression step receives the rescaled boxes in
center-size format unchanged, and the center-to-corner conversion is applied
after suppression, to the boxes at the surviving indices only — each output
detection's box is `xywh2xyxy` of the rescaled center-size box at its
surviving index. -/
theorem corner_conversion_after_suppression (s : YOLOv9) (o : List (List ℚ))
    (p' : List (List ℚ)) (sc' : List ℚ) (dets : List Detection)
    (h1 : s.decoded o.transpose = .ok (p', sc'))
    (h2 : s.postprocess o = .ok dets) :
    dets.map (fun d => d.box)
      = (s.nmsIndices p' sc').map
          (fun i => xywh2xyxy ((s.rescaledBoxes p').getD i [0, 0, 0, 0])) := by
  rw [postprocess_eq_assemble h1] at h2
  exact (assembleDets_ok_map h2).2.1

/-- Concrete instance of the amended C2: the single surviving index `0`
yields the corner conversion of the center-size box `[10, 10, 4, 4]`. -/
theorem corner_conversion_after_suppression_witness :
    ([⟨0, (9 : ℚ)/10, [8, 8, 12, 12], "a"⟩] : List Detection).map (fun d => d.box)
      = (sampleCfg.nmsIndices [[(10 : ℚ), 10, 4, 4, 9/10]] [9/10]).map
          (fun i => xywh2xyxy
            ((sampleCfg.rescaledBoxes [[(10 : ℚ), 10, 4, 4, 9/10]]).getD i [0, 0, 0, 0])) :=
  corner_conversion_after_suppression sampleCfg [[10], [10], [4], [4], [9/10]]
    [[10, 10, 4, 4, 9/10]] [9/10] [⟨0, 9/10, [8, 8, 12, 12], "a"⟩]
    (by with_unfolding_all decide) (by with_unfolding_all decide)

/-- The output ordering claimed for the detection list: descending
confidence, ties broken by ascending class id.  (The claim's further
original-index tie-break only weakens this consecutive relation, so any list
ordered as claimed satisfies it.) -/
def claimOrderedC1 : List Detection → Bool
  | a :: b :: rest =>
    (decide (b.confidence < a.confidence) ||
      (decide (a.confidence = b.confidence) && decide (a.class_index ≤ b.class_index)))
      && claimOrderedC1 (b :: rest)
  | _ => true

set_option maxRecDepth 8000 in
/-- Refutation of claim C1 at a concrete input: two far-apart anchors with
equal confidence `9/10` and class ids `1` and `0` (in anchor order) are both
kept, and the output of the `detect` call lists class `1` before class `0` —
the tie is broken by original index only, never by ascending class id. -/
theorem detection_order_counterexample :
    YOLOv9.detect (fun _ _ _ => ())
        (fun _ => [[100, 400], [100, 400], [10, 10], [10, 10], [1/10, 9/10], [9/10, 1/10]])
        sampleCfg img0
      = .ok (afterDetect sampleCfg img0,
          [⟨1, 9/10, [95, 95, 105, 105], "b"⟩,
           ⟨0, 9/10, [395, 395, 405, 405], "a"⟩]) ∧
    claimOrderedC1 [⟨1, 9/10, [95, 95, 105, 105], "b"⟩,
                    ⟨0, 9/10, [395, 395, 405, 405], "a"⟩] = false := by
  refine ⟨by with_unfolding_all decide, by with_unfolding_all decide⟩

/-- Claim C1 as amended: the detection list of one `postprocess` call is
ordered by non-increasing confidence, and the surviving index list it is
built from is strictly ordered by descending score with ties broken by
ascending original candidate index — the class id plays no role in the
order. -/
theorem detections_sorted_desc (s : YOLOv9) (o : List (List ℚ))
    (p' : List (List ℚ)) (sc' : List ℚ) (dets : List Detection)
    (h1 : s.decoded o.transpose = .ok (p', sc'))
    (h2 : s.postprocess o = .ok dets) :
    List.Chain' (fun a b => b.confidence ≤ a.confidence) dets ∧
    (s.nmsIndices p' sc').Pairwise
      (fun i j => sc'.getD j 0 < sc'.getD i 0 ∨
        (sc'.getD i 0 = sc'.getD j 0 ∧ i < j)) := by
  have hpl : (s.nmsIndices p' sc').Pairwise
      (fun i j => sc'.getD j 0 < sc'.getD i 0 ∨
        (sc'.getD i 0 = sc'.getD j 0 ∧ i < j)) := by
    rw [YOLOv9.nmsIndices]
    exact NMSBoxes_pairwise_lex _ _ _ _
  refine ⟨?_, hpl⟩
  rw [postprocess_eq_assemble h1] at h2
  have hconf := (assembleDets_ok_map h2).1
  have hchain : List.Chain' (fun i j => sc'.getD j 0 ≤ sc'.getD i 0)
      (s.nmsIndices p' sc') := by
    refine List.Pairwise.chain' (hpl.imp ?_)
    intro i j h
    rcases h with h | ⟨h, _⟩
    · exact le_of_lt h
    · exact le_of_eq h.symm
  have h3 : List.Chain' (fun x y : ℚ => y ≤ x)
      (dets.map (fun d => d.confidence)) := by
    rw [hconf]
    exact (List.chain'_map _).mpr hchain
  exact (List.chain'_map _).mp h3

/-- Concrete instance of the amended C1: the two-detection output of the
tie-break scenario is non-increasing in confidence and its surviving index
list `[0, 1]` is lexicographically ordered. -/
theorem detections_sorted_desc_witness :
    List.Chain' (fun a b : Detection => b.confidence ≤ a.confidence)
      [⟨1, 9/10, [95, 95, 105, 105], "b"⟩, ⟨0, 9/10, [395, 395, 405, 405], "a"⟩] ∧
    (sampleCfg.nmsIndices
        [[100, 100, 10, 10, 1/10, 9/10], [400, 400, 10, 10, 9/10, 1/10]]
        [9/10, 9/10]).Pairwise
      (fun i j => ([(9 : ℚ)/10, 9/10].getD j 0 < [(9 : ℚ)/10, 9/10].getD i 0 ∨
        ([(9 : ℚ)/10, 9/10].getD i 0 = [(9 : ℚ)/10, 9/10].getD j 0 ∧ i < j))) :=
  detections_sorted_desc sampleCfg
    [[100, 400], [100, 400], [10, 10], [10, 10], [1/10, 9/10], [9/10, 1/10]]
    [[100, 100, 10, 10, 1/10, 9/10], [400, 400, 10, 10, 9/10, 1/10]] [9/10, 9/10]
    [⟨1, 9/10, [95, 95, 105, 105], "b"⟩, ⟨0, 9/10, [395, 395, 405, 405], "a"⟩]
    (by with_unfolding_all decide) (by with_unfolding_all decide)

/-- `sampleCfg` with stale per-call fields, as left behind by some earlier
call: the configuration is identical. -/
def sampleCfgMut : YOLOv9 :=
  { sampleCfg with img_height := some 99, img_width := some 7 }

set_option maxRecDepth 8000 in
/-- Refutation of claim C9 at a concrete input: a `detect` call writes the
argument image and its dimensions to the instance fields `img`,
`img_height` and `img_width`, so the detector state after the call differs
from the state before it — `detect` is not free of detector-state
mutation. -/
theorem detect_mutates_state_counterexample :
    YOLOv9.detect (fun _ _ _ => ()) (fun _ => ([] : List (List ℚ))) sampleCfg img0
      = .ok (afterDetect sampleCfg img0, []) ∧
    afterDetect sampleCfg img0 ≠ sampleCfg := by
  refine ⟨by with_unfolding_all decide, by with_unfolding_all decide⟩

/-- Claim C9 as amended: a `detect` call overwrites the per-call instance
fields (`img`, `img_height`, `img_width`), but the detection list it returns
depends only on the call's image and the construction-time configuration —
two detectors with equal configuration but arbitrary per-call fields return
identical results — and the configuration fields themselves are never
mutated. -/
theorem detect_depends_only_on_config {τ : Type} (resize : Image → Nat → Nat → τ)
    (run : τ → List (List ℚ)) (s t : YOLOv9) (img : Image)
    (h : configOf s = configOf t) :
    Except.map Prod.snd (YOLOv9.detect resize run s img)
      = Except.map Prod.snd (YOLOv9.detect resize run t img) ∧
    ∀ s' dets, YOLOv9.detect resize run s img = .ok (s', dets) →
      configOf s' = configOf s := by
  constructor
  · rw [detect_eq, detect_eq]
    have hiw : s.input_width = t.input_width := congrArg ConfigView.input_width h
    have hih : s.input_height = t.input_height := congrArg ConfigView.input_height h
    have hpp : (afterDetect s img).postprocess
        (run (resize img t.input_width t.input_height))
          = (afterDetect t img).postprocess
            (run (resize img t.input_width t.input_height)) :=
      postprocess_congr ((configOf_afterDetect s img).trans
        (h.trans (configOf_afterDetect t img).symm)) _
    rw [hiw, hih, hpp]
    cases (afterDetect t img).postprocess (run (resize img t.input_width t.input_height)) <;>
      rfl
  · intro s' dets hdet
    rw [detect_eq] at hdet
    cases hok : (afterDetect s img).postprocess
        (run (resize img s.input_width s.input_height)) with
    | error e => rw [hok] at hdet; simp [Except.map] at hdet
    | ok ds =>
      rw [hok] at hdet
      simp only [Except.map, Except.ok.injEq] at hdet
      rw [← (Prod.mk.injEq _ _ _ _).mp hdet |>.1, configOf_afterDetect]

set_option maxRecDepth 8000 in
/-- Concrete instance of the amended C9: equal-configuration detectors with
different stale per-call fields return the same detections. -/
theorem detect_depends_only_on_config_witness :
    Except.map Prod.snd
        (YOLOv9.detect (fun _ _ _ => ()) (fun _ => ([] : List (List ℚ))) sampleCfg img0)
      = Except.map Prod.snd
        (YOLOv9.detect (fun _ _ _ => ()) (fun _ => ([] : List (List ℚ))) sampleCfgMut img0) ∧
    ∀ s' dets,
      YOLOv9.detect (fun _ _ _ => ()) (fun _ => ([] : List (List ℚ))) sampleCfg img0
        = .ok (s', dets) → configOf s' = configOf sampleCfg :=
  detect_depends_only_on_config (fun _ _ _ => ()) (fun _ => []) sampleCfg sampleCfgMut
    img0 (by with_unfolding_all decide)

/-- Claim C10: rescaling multiplies by the construction-time
`image_width`/`image_height` — replacing the per-call `img_height` and
`img_width` fields changes nothing about `postprocess`, the rescaled row is
literally `trunc(coord / input_dim * image_dim)` with the construction-time
dimensions, and no `detect` call ever changes `image_width`/`image_height`. -/
theorem rescale_uses_construction_size (s : YOLOv9) (hh ww : Option Nat)
    (o : List (List ℚ)) (a b c d : ℚ) (rest : List ℚ) {τ : Type}
    (resize : Image → Nat → Nat → τ) (run : τ → List (List ℚ)) (img : Image) :
    YOLOv9.postprocess { s with img_height := hh, img_width := ww } o
      = s.postprocess o ∧
    s.rescaleRow (a :: b :: c :: d :: rest)
      = [truncQ (a / (s.input_width : ℚ) * (s.image_width : ℚ)),
         truncQ (b / (s.input_height : ℚ) * (s.image_height : ℚ)),
         truncQ (c / (s.input_width : ℚ) * (s.image_width : ℚ)),
         truncQ (d / (s.input_height : ℚ) * (s.image_height : ℚ))] ∧
    ∀ s' dets, YOLOv9.detect resize run s img = .ok (s', dets) →
      s'.image_width = s.image_width ∧ s'.image_height = s.image_height := by
  refine ⟨?_, rfl, ?_⟩
  · exact @postprocess_congr { s with img_height := hh, img_width := ww } s rfl o
  intro s' dets hdet
  rw [detect_eq] at hdet
  cases hok : (afterDetect s img).postprocess
      (run (resize img s.input_width s.input_height)) with
  | error e => rw [hok] at hdet; simp [Except.map] at hdet
  | ok ds =>
    rw [hok] at hdet
    simp only [Except.map, Except.ok.injEq] at hdet
    rw [← (Prod.mk.injEq _ _ _ _).mp hdet |>.1]
    exact ⟨rfl, rfl⟩

/-- Concrete instance of C10: with `original_size = (640, 640)` fixed at
construction, a row is scaled by `640` whatever the per-call fields say, and
`detect` leaves the construction-time size in place. -/
theorem rescale_uses_construction_size_witness :
    YOLOv9.postprocess { sampleCfg with img_height := some 5, img_width := some 7 } []
      = sampleCfg.postprocess [] ∧
    sampleCfg.rescaleRow [640, 320, 64, 32]
      = [truncQ ((640 : ℚ) / 640 * 640), truncQ ((320 : ℚ) / 640 * 640),
         truncQ ((64 : ℚ) / 640 * 640), truncQ ((32 : ℚ) / 640 * 640)] ∧
    ∀ s' dets,
      YOLOv9.detect (fun _ _ _ => ()) (fun _ => ([] : List (List ℚ))) sampleCfg img0
        = .ok (s', dets) →
      s'.image_width = sampleCfg.image_width ∧
        s'.image_height = sampleCfg.image_height :=
  rescale_uses_construction_size sampleCfg (some 5) (some 7) [] 640 320 64 32 []
    (fun _ _ _ => ()) (fun _ => []) img0

/-- Claim C8: suppression is idempotent — feeding the boxes and scores that a
`NMSBoxes` call kept back into `NMSBoxes` with the same thresholds keeps
every one of them (the result is `[0, 1, ..., n-1]`: no further suppression
occurs). -/
theorem suppress_idempotent (boxes : List (List ℤ)) (scores : List ℚ) (st it : ℚ) :
    NMSBoxes ((NMSBoxes boxes scores st it).map (fun i => boxes.getD i []))
      ((NMSBoxes boxes scores st it).map (fun i => scores.getD i 0)) st it
      = List.range (NMSBoxes boxes scores st it).length := by
  have hsc : ∀ i ∈ NMSBoxes boxes scores st it, st < scores.getD i 0 :=
    fun i hi => NMSBoxes_mem_score hi
  have hlex := NMSBoxes_pairwise_lex boxes scores st it
  have hov := NMSBoxes_pairwise_overlap boxes scores st it
  rw [NMSBoxes, List.zip_map']
  have hfil : (mkCands 0 ((NMSBoxes boxes scores st it).map
        (fun i => (boxes.getD i [], scores.getD i 0)))).filter
      (fun c => decide (st < c.score))
      = mkCands 0 ((NMSBoxes boxes scores st it).map
        (fun i => (boxes.getD i [], scores.getD i 0))) := by
    rw [List.filter_eq_self]
    intro c hc
    rcases List.mem_map.mp (mem_mkCands_pair _ 0 c hc) with ⟨i, hi, hpair⟩
    have hcs : c.score = scores.getD i 0 := (congrArg Prod.snd hpair).symm
    exact decide_eq_true (hcs ▸ hsc i hi)
  rw [hfil]
  have hps : ((NMSBoxes boxes scores st it).map
      (fun i => (boxes.getD i [], scores.getD i 0))).Pairwise
        (fun p q => q.2 ≤ p.2) := by
    refine List.pairwise_map.mpr (hlex.imp ?_)
    intro i j hij
    rcases hij with hij | ⟨hij, -⟩
    · exact le_of_lt hij
    · exact le_of_eq hij.symm
  have hsorted : (mkCands 0 ((NMSBoxes boxes scores st it).map
      (fun i => (boxes.getD i [], scores.getD i 0)))).Pairwise
        (fun a b => b.score ≤ a.score) :=
    mkCands_pairwise (fun _ _ p q (hpq : q.2 ≤ p.2) => hpq) _ 0 hps
  rw [sortDesc_eq_self hsorted]
  have hpo : ((NMSBoxes boxes scores st it).map
      (fun i => (boxes.getD i [], scores.getD i 0))).Pairwise
        (fun p q => rectOverlap p.1 q.1 ≤ it) :=
    List.pairwise_map.mpr hov
  have hovc : (mkCands 0 ((NMSBoxes boxes scores st it).map
      (fun i => (boxes.getD i [], scores.getD i 0)))).Pairwise
        (fun a b => rectOverlap a.cbox b.cbox ≤ it) :=
    mkCands_pairwise (fun _ _ p q (hpq : rectOverlap p.1 q.1 ≤ it) => hpq) _ 0 hpo
  rw [nmsLoop_keep_all it _ [] hovc (fun k hk => absurd hk (List.not_mem_nil k)),
    mkCands_map_idx, List.length_map, ← List.range_eq_range']
